import Mathlib

/-!
# Verification of the HD-cli chart-computation core

Shallow embedding of the core algorithms of the HD-cli repository
(`src/astro_calc.rs`, `src/calc.rs`, `src/data/gates.rs`,
`src/data/channels.rs`, `src/data/centers.rs`) and proofs of the
specification's claims about them.

Rust `f64` arithmetic is modelled by exact rational arithmetic (`ℚ`):
every constant appearing in the code is rational, and the claims under
verification concern the mathematical algorithm (control flow, ranges,
table lookups), not floating-point rounding.  Machine-integer casts are
modelled explicitly (`castU8`, `castUsize`).  Code that can panic is
modelled with `Option`.
-/

namespace HDcli

/-- Truncation toward zero on rationals, mirroring Rust `f64::trunc` /
the rounding used by `as` integer casts. -/
def truncQ (q : ℚ) : ℤ := if 0 ≤ q then ⌊q⌋ else ⌈q⌉

/-- Truncated remainder, mirroring Rust's `%` on `f64`
(`x % y = x - y * (x/y).trunc()`). -/
def tmodQ (x y : ℚ) : ℚ := x - y * truncQ (x / y)

/-- Saturating cast of an (already truncated) value to `u8`,
mirroring Rust's `as u8` on a float. -/
def castU8 (z : ℤ) : ℕ := min z.toNat 255

/-- Saturating cast of an (already truncated) value to `usize`,
mirroring Rust's `as usize` on a float (lower saturation at 0; the
upper bound is astronomically large and irrelevant here). -/
def castUsize (z : ℤ) : ℕ := z.toNat

/-- Wrapping cast of an integer (`i32`) value to `i16`, mirroring
Rust's `as i16` between integer types: two's-complement truncation to
16 bits. -/
def castI16 (z : ℤ) : ℤ := (z + 32768) % 65536 - 32768

/-- Rust `f64::fract`: `x - x.trunc()` (sign-preserving). -/
def fractQ (x : ℚ) : ℚ := x - truncQ x

/-- `src/astro_calc.rs::normalize_deg`: reduce an angle into `[0, 360)`.
`let mut d = deg % 360.0; if d < 0.0 { d += 360.0; } d` -/
def normalize_deg (deg : ℚ) : ℚ :=
  let d := tmodQ deg 360
  if d < 0 then d + 360 else d

theorem sub_one_lt_truncQ (q : ℚ) : q - 1 < (truncQ q : ℚ) := by
  unfold truncQ
  split
  · exact Int.sub_one_lt_floor q
  · calc q - 1 < q := by linarith
      _ ≤ _ := Int.le_ceil q

theorem truncQ_lt_add_one (q : ℚ) : (truncQ q : ℚ) < q + 1 := by
  unfold truncQ
  split
  · calc (⌊q⌋ : ℚ) ≤ q := Int.floor_le q
      _ < q + 1 := by linarith
  · exact Int.ceil_lt_add_one q

theorem truncQ_le_of_nonneg {q : ℚ} (h : 0 ≤ q) : (truncQ q : ℚ) ≤ q := by
  unfold truncQ
  rw [if_pos h]
  exact Int.floor_le q

/-- Bounds for the truncated remainder by 360: always in `(-360, 360)`. -/
theorem tmodQ_360_bounds (x : ℚ) : -360 < tmodQ x 360 ∧ tmodQ x 360 < 360 := by
  unfold tmodQ
  have h1 := sub_one_lt_truncQ (x / 360)
  have h2 := truncQ_lt_add_one (x / 360)
  constructor <;> nlinarith

/-- For nonnegative input the truncated remainder by 360 is nonnegative. -/
theorem tmodQ_360_nonneg {x : ℚ} (h : 0 ≤ x) : 0 ≤ tmodQ x 360 := by
  unfold tmodQ
  have h0 : (0:ℚ) ≤ x / 360 := by positivity
  have := truncQ_le_of_nonneg h0
  nlinarith

/-- The normalized angle lies in `[0, 360)` and differs from the input
by an integer multiple of 360. -/
theorem normalize_deg_char (x : ℚ) :
    0 ≤ normalize_deg x ∧ normalize_deg x < 360 ∧
      ∃ k : ℤ, x - normalize_deg x = 360 * k := by
  unfold normalize_deg
  obtain ⟨hlo, hhi⟩ := tmodQ_360_bounds x
  by_cases hneg : tmodQ x 360 < 0
  · rw [if_pos hneg]
    refine ⟨by linarith, by linarith, ⟨truncQ (x / 360) - 1, ?_⟩⟩
    unfold tmodQ
    push_cast
    ring
  · rw [if_neg hneg]
    refine ⟨by linarith, hhi, ⟨truncQ (x / 360), ?_⟩⟩
    unfold tmodQ
    ring

/-- Two values of `[0, 360)` that differ by an integer multiple of 360
are equal. -/
theorem eq_of_mod360_eq {a b : ℚ} (ha0 : 0 ≤ a) (ha1 : a < 360)
    (hb0 : 0 ≤ b) (hb1 : b < 360) (h : ∃ k : ℤ, a - b = 360 * k) :
    a = b := by
  obtain ⟨k, hk⟩ := h
  have hk1 : (k : ℚ) < 1 := by nlinarith
  have hk2 : (-1 : ℚ) < (k : ℚ) := by nlinarith
  have hk1' : k < 1 := by exact_mod_cast hk1
  have hk2' : (-1 : ℤ) < k := by exact_mod_cast hk2
  have : k = 0 := by omega
  rw [this] at hk
  push_cast at hk
  linarith

/-- Any value of `[0,360)` congruent to `x` modulo 360 is `normalize_deg x`. -/
theorem normalize_deg_eq_of {x a : ℚ} (ha0 : 0 ≤ a) (ha1 : a < 360)
    (h : ∃ k : ℤ, x - a = 360 * k) : normalize_deg x = a := by
  obtain ⟨h0, h1, k, hk⟩ := normalize_deg_char x
  obtain ⟨k', hk'⟩ := h
  exact eq_of_mod360_eq h0 h1 ha0 ha1 ⟨k' - k, by push_cast; linarith⟩

/-! ## Wheel mapping (`src/data/gates.rs`) -/

/-- `src/data/gates.rs::GATE_ORDER`: the order of the 64 gates around the
HD wheel, starting with gate 41. -/
def GATE_ORDER : List ℕ :=
  [41, 19, 13, 49, 30, 55, 37, 63,
   22, 36, 25, 17, 21, 51, 42, 3,
   27, 24, 2, 23, 8, 20, 16, 35,
   45, 12, 15, 52, 39, 53, 62, 56,
   31, 33, 7, 4, 29, 59, 40, 64,
   47, 6, 46, 18, 48, 57, 32, 50,
   28, 44, 1, 43, 14, 34, 9, 5,
   26, 11, 10, 58, 38, 54, 61, 60]

/-- `WHEEL_START_DEGREE = 302.0` -/
def WHEEL_START_DEGREE : ℚ := 302

/-- `GATE_SIZE_DEG = 5.625` -/
def GATE_SIZE_DEG : ℚ := 45 / 8

/-- `LINE_SIZE_DEG = 0.9375` -/
def LINE_SIZE_DEG : ℚ := 15 / 16

/-- `COLOR_SIZE_DEG = 0.15625` -/
def COLOR_SIZE_DEG : ℚ := 5 / 32

/-- `src/data/gates.rs::GatePosition` -/
structure GatePosition where
  gate : ℕ
  line : ℕ
  color : ℕ
  tone : ℕ
  base : ℕ
  degree : ℚ
  deriving DecidableEq

/-- `src/data/gates.rs::degree_to_gate`: convert an ecliptic degree into
gate/line/color/tone/base.  Faithful transcription of the source; the
`.floor() as u8` / `as usize` casts are modelled by `⌊·⌋` composed with
the saturating casts. -/
def degree_to_gate (ecliptic_deg : ℚ) : GatePosition :=
  let deg0 := tmodQ ecliptic_deg 360
  let deg := if deg0 < 0 then deg0 + 360 else deg0
  let offset0 := deg - WHEEL_START_DEGREE
  let offset := if offset0 < 0 then offset0 + 360 else offset0
  let gate_index := min (castUsize ⌊offset / GATE_SIZE_DEG⌋) 63
  let within_gate := offset - (gate_index : ℚ) * GATE_SIZE_DEG
  let line_index := castU8 ⌊within_gate / LINE_SIZE_DEG⌋
  let line := min (line_index + 1) 6
  let within_line := within_gate - (line_index : ℚ) * LINE_SIZE_DEG
  let color_index := castU8 ⌊within_line / COLOR_SIZE_DEG⌋
  let color := min (color_index + 1) 6
  let within_color := within_line - (color_index : ℚ) * COLOR_SIZE_DEG
  let tone_size := COLOR_SIZE_DEG / 6
  let tone_index := castU8 ⌊within_color / tone_size⌋
  let tone := min (tone_index + 1) 6
  let within_tone := within_color - (tone_index : ℚ) * tone_size
  let base_size := tone_size / 5
  let base_index := castU8 ⌊within_tone / base_size⌋
  let base := min (base_index + 1) 5
  { gate := GATE_ORDER.getD gate_index 0, line := line, color := color,
    tone := tone, base := base, degree := deg }

/-- The inline normalization at the top of `degree_to_gate` agrees with
`normalize_deg`. -/
theorem degree_to_gate_norm (x : ℚ) :
    (let d0 := tmodQ x 360; if d0 < 0 then d0 + 360 else d0) =
      normalize_deg x := rfl

/-- The wheel offset computed by `degree_to_gate` equals
`normalize_deg (L - 302)`. -/
theorem wheel_offset_eq (L : ℚ) :
    (if normalize_deg L - WHEEL_START_DEGREE < 0 then
      normalize_deg L - WHEEL_START_DEGREE + 360
    else normalize_deg L - WHEEL_START_DEGREE) =
      normalize_deg (L - WHEEL_START_DEGREE) := by
  obtain ⟨h0, h1, k, hk⟩ := normalize_deg_char L
  unfold WHEEL_START_DEGREE
  split
  · refine (normalize_deg_eq_of (by linarith) (by linarith) ⟨k - 1, ?_⟩).symm
    push_cast
    linarith
  · refine (normalize_deg_eq_of (by linarith) (by linarith) ⟨k, ?_⟩).symm
    linarith

/-- Every slot of the 64-entry gate table holds a gate ID in `[1, 64]`. -/
theorem GATE_ORDER_entries : ∀ i : ℕ, i < 64 →
    1 ≤ GATE_ORDER.getD i 0 ∧ GATE_ORDER.getD i 0 ≤ 64 := by decide

/-- C2: for every longitude `L`, `degree_to_gate` returns as gate ID the
entry of the fixed 64-entry table `GATE_ORDER` at index
`min ⌊normalize(L - 302) / 5.625⌋ 63`; the table is a permutation of the
gate IDs 1..64, starts at gate 41, and is not the numeric gate-ID order. -/
theorem degree_to_gate_gate_spec (L : ℚ) :
    (degree_to_gate L).gate =
      GATE_ORDER.getD
        (min (castUsize ⌊normalize_deg (L - WHEEL_START_DEGREE) / GATE_SIZE_DEG⌋)
          63) 0 ∧
    GATE_ORDER.length = 64 ∧
    GATE_ORDER.Perm ((List.range 64).map fun n => n + 1) ∧
    GATE_ORDER.getD 0 0 = 41 ∧
    GATE_ORDER ≠ ((List.range 64).map fun n => n + 1) := by
  refine ⟨?_, rfl, by decide, rfl, by decide⟩
  rw [← wheel_offset_eq L]
  rfl

/-- Closed-form instance of `degree_to_gate_gate_spec` at `L = 100`. -/
theorem degree_to_gate_gate_spec_witness :
    (degree_to_gate 100).gate =
      GATE_ORDER.getD
        (min (castUsize ⌊normalize_deg (100 - WHEEL_START_DEGREE) / GATE_SIZE_DEG⌋)
          63) 0 ∧
    GATE_ORDER.length = 64 ∧
    GATE_ORDER.Perm ((List.range 64).map fun n => n + 1) ∧
    GATE_ORDER.getD 0 0 = 41 ∧
    GATE_ORDER ≠ ((List.range 64).map fun n => n + 1) :=
  degree_to_gate_gate_spec 100

/-- C3: for every longitude in `[0, 360)`, the result of `degree_to_gate`
has gate in `[1,64]`, line/color/tone in `[1,6]`, base in `[1,5]`, and the
function is deterministic (same input, identical output tuple). -/
theorem degree_to_gate_range (L : ℚ) (_h0 : 0 ≤ L) (_h1 : L < 360) :
    (1 ≤ (degree_to_gate L).gate ∧ (degree_to_gate L).gate ≤ 64) ∧
    (1 ≤ (degree_to_gate L).line ∧ (degree_to_gate L).line ≤ 6) ∧
    (1 ≤ (degree_to_gate L).color ∧ (degree_to_gate L).color ≤ 6) ∧
    (1 ≤ (degree_to_gate L).tone ∧ (degree_to_gate L).tone ≤ 6) ∧
    (1 ≤ (degree_to_gate L).base ∧ (degree_to_gate L).base ≤ 5) ∧
    degree_to_gate L = degree_to_gate L := by
  refine ⟨?_, ?_, ?_, ?_, ?_, rfl⟩ <;> simp only [degree_to_gate]
  · exact GATE_ORDER_entries _ (by omega)
  all_goals omega

/-- Closed-form instance of `degree_to_gate_range` at `L = 100`. -/
theorem degree_to_gate_range_witness :
    (1 ≤ (degree_to_gate 100).gate ∧ (degree_to_gate 100).gate ≤ 64) ∧
    (1 ≤ (degree_to_gate 100).line ∧ (degree_to_gate 100).line ≤ 6) ∧
    (1 ≤ (degree_to_gate 100).color ∧ (degree_to_gate 100).color ≤ 6) ∧
    (1 ≤ (degree_to_gate 100).tone ∧ (degree_to_gate 100).tone ≤ 6) ∧
    (1 ≤ (degree_to_gate 100).base ∧ (degree_to_gate 100).base ≤ 5) ∧
    degree_to_gate 100 = degree_to_gate 100 :=
  degree_to_gate_range 100 (by decide) (by decide)

/-! ## Centers (`src/data/centers.rs`) -/

/-- `src/data/centers.rs::Center`: the nine HD body centers. -/
inductive Center where
  | Head
  | Ajna
  | Throat
  | G
  | Heart
  | Sacral
  | SolarPlexus
  | Spleen
  | Root
  deriving DecidableEq, Fintype

/-- `Center::is_motor`: Sacral, Heart, SolarPlexus, Root are motors. -/
def Center.is_motor : Center → Bool
  | .Sacral | .Heart | .SolarPlexus | .Root => true
  | _ => false

/-! ## Channels (`src/data/channels.rs`) -/

/-- `src/data/channels.rs::ChannelDef` -/
structure ChannelDef where
  gate_a : ℕ
  gate_b : ℕ
  center_a : Center
  center_b : Center
  deriving DecidableEq

/-- `ChannelDef::key`: the unordered gate-pair key.  The source formats
the string `min-max`; decimal formatting of two numbers joined by a dash
is injective on ordered pairs, so the ordered pair itself is a faithful
model of the key (two keys are equal iff the strings are). -/
def ChannelDef.key (ch : ChannelDef) : ℕ × ℕ :=
  if ch.gate_a < ch.gate_b then (ch.gate_a, ch.gate_b) else (ch.gate_b, ch.gate_a)

/-- `src/data/channels.rs::all_channels`: the static table of the 36 HD
channels. -/
def all_channels : List ChannelDef :=
  [⟨64, 47, .Head, .Ajna⟩,
   ⟨61, 24, .Head, .Ajna⟩,
   ⟨63, 4, .Head, .Ajna⟩,
   ⟨17, 62, .Ajna, .Throat⟩,
   ⟨43, 23, .Ajna, .Throat⟩,
   ⟨11, 56, .Ajna, .Throat⟩,
   ⟨7, 31, .G, .Throat⟩,
   ⟨1, 8, .G, .Throat⟩,
   ⟨13, 33, .G, .Throat⟩,
   ⟨10, 20, .G, .Throat⟩,
   ⟨16, 48, .Throat, .Spleen⟩,
   ⟨20, 57, .Throat, .Spleen⟩,
   ⟨20, 34, .Throat, .Sacral⟩,
   ⟨12, 22, .Throat, .SolarPlexus⟩,
   ⟨35, 36, .Throat, .SolarPlexus⟩,
   ⟨45, 21, .Throat, .Heart⟩,
   ⟨2, 14, .G, .Sacral⟩,
   ⟨10, 34, .G, .Sacral⟩,
   ⟨25, 51, .G, .Heart⟩,
   ⟨15, 5, .G, .Sacral⟩,
   ⟨46, 29, .G, .Sacral⟩,
   ⟨26, 44, .Heart, .Spleen⟩,
   ⟨40, 37, .Heart, .SolarPlexus⟩,
   ⟨59, 6, .Sacral, .SolarPlexus⟩,
   ⟨27, 50, .Sacral, .Spleen⟩,
   ⟨34, 57, .Sacral, .Spleen⟩,
   ⟨5, 15, .Sacral, .G⟩,
   ⟨14, 2, .Sacral, .G⟩,
   ⟨29, 46, .Sacral, .G⟩,
   ⟨42, 53, .Sacral, .Root⟩,
   ⟨3, 60, .Sacral, .Root⟩,
   ⟨9, 52, .Sacral, .Root⟩,
   ⟨57, 20, .Spleen, .Throat⟩,
   ⟨18, 58, .Spleen, .Root⟩,
   ⟨28, 38, .Spleen, .Root⟩,
   ⟨32, 54, .Spleen, .Root⟩,
   ⟨39, 55, .Root, .SolarPlexus⟩,
   ⟨41, 30, .Root, .SolarPlexus⟩,
   ⟨19, 49, .Root, .SolarPlexus⟩]

/-- `src/data/channels.rs::find_active_channels`: keep the channels whose
two gates are both active. -/
def find_active_channels (active_gates : List ℕ) : List ChannelDef :=
  all_channels.filter fun ch =>
    active_gates.contains ch.gate_a && active_gates.contains ch.gate_b

/-- Recursion underlying `unique_channels`: the Rust code filters with a
mutable `seen` set of keys, keeping a channel iff its key was not seen
before. -/
def unique_channels_aux (seen : List (ℕ × ℕ)) : List ChannelDef → List ChannelDef
  | [] => []
  | ch :: rest =>
    if ch.key ∈ seen then unique_channels_aux seen rest
    else ch :: unique_channels_aux (ch.key :: seen) rest

/-- `src/data/channels.rs::unique_channels`: remove channel duplicates by
key. -/
def unique_channels (channels : List ChannelDef) : List ChannelDef :=
  unique_channels_aux [] channels

/-- C4 (code evaluation): the static channel table has 39 entries, not
the 36 its own doc comment ("All 36 HD channels") and the spec assert;
four gate pairs are listed twice, so only 35 distinct gate-pair keys
remain after deduplication. -/
theorem all_channels_length :
    all_channels.length = 39 ∧ (unique_channels all_channels).length = 35 := by
  constructor <;> rfl

/-- Keys of the deduplicated output never repeat, and none of them lies
in the initial `seen` set. -/
theorem unique_channels_aux_spec (l : List ChannelDef) :
    ∀ seen : List (ℕ × ℕ),
      (unique_channels_aux seen l).Pairwise (fun a b => a.key ≠ b.key) ∧
      ∀ ch ∈ unique_channels_aux seen l, ch.key ∉ seen := by
  induction l with
  | nil => exact fun seen => ⟨List.Pairwise.nil, by simp [unique_channels_aux]⟩
  | cons ch rest ih =>
    intro seen
    by_cases hmem : ch.key ∈ seen
    · rw [unique_channels_aux, if_pos hmem]
      exact ih seen
    · rw [unique_channels_aux, if_neg hmem]
      obtain ⟨hpw, hnot⟩ := ih (ch.key :: seen)
      refine ⟨List.Pairwise.cons ?_ hpw, ?_⟩
      · intro b hb
        have := hnot b hb
        simp only [List.mem_cons] at this
        push_neg at this
        exact fun h => this.1 h.symm
      · intro b hb
        rcases List.mem_cons.mp hb with h | h
        · rw [h]; exact hmem
        · have := hnot b h
          simp only [List.mem_cons] at this
          push_neg at this
          exact this.2

/-- C5: a channel is in `find_active_channels` iff it is a channel of the
static table whose two gates are both active, and after `unique_channels`
each unordered gate-pair key appears at most once, whatever the input
list (in particular even when the static table repeats a gate pair). -/
theorem find_active_channels_spec (active_gates : List ℕ) :
    (∀ ch : ChannelDef,
      ch ∈ find_active_channels active_gates ↔
        ch ∈ all_channels ∧ ch.gate_a ∈ active_gates ∧ ch.gate_b ∈ active_gates) ∧
    (∀ channels : List ChannelDef,
      (unique_channels channels).Pairwise (fun a b => a.key ≠ b.key)) := by
  constructor
  · intro ch
    simp [find_active_channels, List.mem_filter, and_assoc]
  · intro channels
    exact (unique_channels_aux_spec channels []).1

/-! ## Type and authority classification (`src/calc.rs`) -/

/-- The sequence of centers that one loop turn of
`has_motor_to_throat_connection` pushes onto its stack when visiting
`current`: for each channel with an endpoint equal to `current`, the
opposite endpoint, provided that endpoint is a defined center. -/
def dfs_pushes (defined : Finset Center) (channels : List ChannelDef)
    (current : Center) : List Center :=
  channels.flatMap fun ch =>
    (if ch.center_a = current ∧ ch.center_b ∈ defined then [ch.center_b] else []) ++
    (if ch.center_b = current ∧ ch.center_a ∈ defined then [ch.center_a] else [])

/-- The worklist loop of `src/calc.rs::has_motor_to_throat_connection`:
pop a center, skip it when already visited, succeed when it is a motor
other than Throat, otherwise mark it visited and push its neighbours.
(`.reverse` mirrors pushing onto the end of the Rust `Vec`, which pops
from the end; the source inserts into `visited` just before the motor
test, which is observationally identical.) -/
def dfs_loop (defined : Finset Center) (channels : List ChannelDef) :
    List Center → Finset Center → Bool
  | [], _ => false
  | current :: rest, visited =>
    if current ∈ visited then dfs_loop defined channels rest visited
    else if current ≠ Center.Throat ∧ current.is_motor then true
    else dfs_loop defined channels
      ((dfs_pushes defined channels current).reverse ++ rest)
      (insert current visited)
termination_by s visited => ((Finset.univ \ visited).card, s.length)
decreasing_by
  · apply Prod.Lex.right
    simp [List.length_cons]
  · apply Prod.Lex.left
    have h1 : (insert current visited).card = visited.card + 1 :=
      Finset.card_insert_of_not_mem (by assumption)
    have h2 : (Finset.univ \ insert current visited).card =
        Finset.univ.card - (insert current visited).card :=
      Finset.card_sdiff (Finset.subset_univ _)
    have h3 : (Finset.univ \ visited).card = Finset.univ.card - visited.card :=
      Finset.card_sdiff (Finset.subset_univ _)
    have h4 : (insert current visited).card ≤ Finset.univ.card :=
      Finset.card_le_card (Finset.subset_univ _)
    omega

/-- `src/calc.rs::has_motor_to_throat_connection`: return false when
Throat is undefined, otherwise run the stack traversal from Throat. -/
def has_motor_to_throat_connection (defined : Finset Center)
    (channels : List ChannelDef) : Bool :=
  if Center.Throat ∈ defined then
    dfs_loop defined channels [Center.Throat] ∅
  else
    false

/-- `src/calc.rs::determine_type`: priority-ordered type classification. -/
def determine_type (defined : Finset Center) (channels : List ChannelDef) :
    String :=
  let has_sacral := Center.Sacral ∈ defined
  let motor_to_throat := has_motor_to_throat_connection defined channels
  if defined = ∅ then "reflector"
  else if has_sacral ∧ motor_to_throat then "manifesting_generator"
  else if has_sacral then "generator"
  else if motor_to_throat then "manifestor"
  else "projector"

/-- `src/calc.rs::determine_authority`: priority list over defined
centers. -/
def determine_authority (defined : Finset Center) : String :=
  if Center.SolarPlexus ∈ defined then "emotional"
  else if Center.Sacral ∈ defined then "sacral"
  else if Center.Spleen ∈ defined then "splenic"
  else if Center.Heart ∈ defined then "ego"
  else if Center.G ∈ defined then "self_projected"
  else if Center.Throat ∈ defined then "mental"
  else "lunar"

/-- Spec-side formulation of one step of the graph search: from `x` to
`y` along a listed channel whose opposite endpoint `y` is a defined
center (the subgraph induced by the active channels restricted to
defined centers). -/
def reach_step (defined : Finset Center) (channels : List ChannelDef)
    (x y : Center) : Prop :=
  y ∈ defined ∧ ∃ ch ∈ channels,
    (ch.center_a = x ∧ ch.center_b = y) ∨ (ch.center_b = x ∧ ch.center_a = y)

/-- Spec-side formulation of motor-to-throat reachability: Throat is
defined and some motor center other than Throat is reachable from Throat
through the defined subgraph. -/
def motor_to_throat_reachable (defined : Finset Center)
    (channels : List ChannelDef) : Prop :=
  Center.Throat ∈ defined ∧ ∃ m : Center, m.is_motor = true ∧
    m ≠ Center.Throat ∧
    Relation.ReflTransGen (reach_step defined channels) Center.Throat m

/-- A center is pushed by the traversal exactly when it is one
traversal step away. -/
theorem mem_dfs_pushes {defined : Finset Center} {channels : List ChannelDef}
    {x y : Center} :
    y ∈ dfs_pushes defined channels x ↔ reach_step defined channels x y := by
  simp only [dfs_pushes, reach_step, List.mem_flatMap, List.mem_append,
    List.mem_ite_nil_right, List.mem_singleton]
  constructor
  · rintro ⟨ch, hch, ⟨⟨ha, hb⟩, hy⟩ | ⟨⟨ha, hb⟩, hy⟩⟩
    · exact ⟨hy ▸ hb, ch, hch, Or.inl ⟨ha, hy.symm⟩⟩
    · exact ⟨hy ▸ hb, ch, hch, Or.inr ⟨ha, hy.symm⟩⟩
  · rintro ⟨hy, ch, hch, ⟨ha, hb⟩ | ⟨ha, hb⟩⟩
    · exact ⟨ch, hch, Or.inl ⟨⟨ha, hb ▸ hy⟩, hb.symm⟩⟩
    · exact ⟨ch, hch, Or.inr ⟨⟨ha, hb ▸ hy⟩, hb.symm⟩⟩

/-- Soundness of the traversal: a `true` answer exhibits a motor other
than Throat reachable from some stack element. -/
theorem dfs_loop_sound (defined : Finset Center) (channels : List ChannelDef) :
    ∀ (stack : List Center) (visited : Finset Center),
      dfs_loop defined channels stack visited = true →
      ∃ m : Center, m.is_motor = true ∧ m ≠ Center.Throat ∧
        ∃ c ∈ stack,
          Relation.ReflTransGen (reach_step defined channels) c m := by
  intro stack visited
  induction stack, visited using dfs_loop.induct defined channels with
  | case1 visited => intro h; exact absurd h (by simp [dfs_loop])
  | case2 current rest visited hvis ih =>
    rw [dfs_loop, if_pos hvis]
    intro h
    obtain ⟨m, hm, hmT, c, hc, hr⟩ := ih h
    exact ⟨m, hm, hmT, c, List.mem_cons_of_mem _ hc, hr⟩
  | case3 current rest visited hvis hmot =>
    intro _
    exact ⟨current, hmot.2, hmot.1, current, List.mem_cons_self _ _,
      Relation.ReflTransGen.refl⟩
  | case4 current rest visited hvis hmot ih =>
    rw [dfs_loop, if_neg hvis, if_neg hmot]
    intro h
    obtain ⟨m, hm, hmT, c, hc, hr⟩ := ih h
    rcases List.mem_append.mp hc with hc | hc
    · refine ⟨m, hm, hmT, current, List.mem_cons_self _ _, ?_⟩
      exact Relation.ReflTransGen.head
        (mem_dfs_pushes.mp (List.mem_reverse.mp hc)) hr
    · exact ⟨m, hm, hmT, c, List.mem_cons_of_mem _ hc, hr⟩

/-- A set closed under traversal steps contains everything reachable
from its members. -/
theorem reach_closed {defined : Finset Center} {channels : List ChannelDef}
    {v : Finset Center}
    (hc : ∀ x ∈ v, ∀ y, reach_step defined channels x y → y ∈ v) :
    ∀ {a b : Center},
      Relation.ReflTransGen (reach_step defined channels) a b →
      a ∈ v → b ∈ v := by
  intro a b h ha
  induction h with
  | refl => exact ha
  | tail _ hbc ih => exact hc _ ih _ hbc

/-- Completeness of the traversal: when every edge out of a visited
center lands in `visited ∪ stack`, no visited center is a non-Throat
motor, and some non-Throat motor is reachable from a center of
`stack ∪ visited`, the loop answers `true`. -/
theorem dfs_loop_complete (defined : Finset Center)
    (channels : List ChannelDef) (m : Center) (hm : m.is_motor = true)
    (hmT : m ≠ Center.Throat) :
    ∀ (stack : List Center) (visited : Finset Center),
      (∀ x ∈ visited, ∀ y, reach_step defined channels x y →
        y ∈ visited ∨ y ∈ stack) →
      (∀ x ∈ visited, ¬(x ≠ Center.Throat ∧ x.is_motor = true)) →
      (∃ c : Center, (c ∈ stack ∨ c ∈ visited) ∧
        Relation.ReflTransGen (reach_step defined channels) c m) →
      dfs_loop defined channels stack visited = true := by
  intro stack visited
  induction stack, visited using dfs_loop.induct defined channels with
  | case1 visited =>
    rintro hinv hnomot ⟨c, hc | hc, hr⟩
    · exact absurd hc (List.not_mem_nil c)
    · have hmv : m ∈ visited := by
        refine reach_closed ?_ hr hc
        intro x hx y hstep
        rcases hinv x hx y hstep with h | h
        · exact h
        · exact absurd h (List.not_mem_nil y)
      exact absurd ⟨hmT, hm⟩ (hnomot m hmv)
  | case2 current rest visited hvis ih =>
    intro hinv hnomot hreach
    rw [dfs_loop, if_pos hvis]
    refine ih ?_ hnomot ?_
    · intro x hx y hstep
      rcases hinv x hx y hstep with h | h
      · exact Or.inl h
      · rcases List.mem_cons.mp h with h | h
        · exact Or.inl (h ▸ hvis)
        · exact Or.inr h
    · obtain ⟨c, hc, hr⟩ := hreach
      rcases hc with hc | hc
      · rcases List.mem_cons.mp hc with h | h
        · exact ⟨c, Or.inr (h ▸ hvis), hr⟩
        · exact ⟨c, Or.inl h, hr⟩
      · exact ⟨c, Or.inr hc, hr⟩
  | case3 current rest visited hvis hmot =>
    intro _ _ _
    rw [dfs_loop, if_neg hvis, if_pos hmot]
  | case4 current rest visited hvis hmot ih =>
    intro hinv hnomot hreach
    rw [dfs_loop, if_neg hvis, if_neg hmot]
    refine ih ?_ ?_ ?_
    · intro x hx y hstep
      rcases Finset.mem_insert.mp hx with hx | hx
      · subst hx
        exact Or.inr (List.mem_append.mpr (Or.inl
          (List.mem_reverse.mpr (mem_dfs_pushes.mpr hstep))))
      · rcases hinv x hx y hstep with h | h
        · exact Or.inl (Finset.mem_insert_of_mem h)
        · rcases List.mem_cons.mp h with h | h
          · exact Or.inl (h ▸ Finset.mem_insert_self _ _)
          · exact Or.inr (List.mem_append.mpr (Or.inr h))
    · intro x hx
      rcases Finset.mem_insert.mp hx with hx | hx
      · exact hx ▸ hmot
      · exact hnomot x hx
    · obtain ⟨c, hc, hr⟩ := hreach
      rcases hc with hc | hc
      · rcases List.mem_cons.mp hc with h | h
        · exact ⟨c, Or.inr (h ▸ Finset.mem_insert_self _ _), hr⟩
        · exact ⟨c, Or.inl (List.mem_append.mpr (Or.inr h)), hr⟩
      · exact ⟨c, Or.inr (Finset.mem_insert_of_mem hc), hr⟩

/-- The stack traversal of the source decides exactly the spec's
motor-to-throat reachability. -/
theorem has_motor_to_throat_iff (defined : Finset Center)
    (channels : List ChannelDef) :
    has_motor_to_throat_connection defined channels = true ↔
      motor_to_throat_reachable defined channels := by
  unfold has_motor_to_throat_connection motor_to_throat_reachable
  by_cases hT : Center.Throat ∈ defined
  · rw [if_pos hT]
    constructor
    · intro h
      obtain ⟨m, hm, hmT, c, hc, hr⟩ := dfs_loop_sound defined channels _ _ h
      rw [List.mem_singleton] at hc
      subst hc
      exact ⟨hT, m, hm, hmT, hr⟩
    · rintro ⟨-, m, hm, hmT, hr⟩
      refine dfs_loop_complete defined channels m hm hmT _ _ ?_ ?_ ?_
      · intro x hx
        exact absurd hx (Finset.not_mem_empty x)
      · intro x hx
        exact absurd hx (Finset.not_mem_empty x)
      · exact ⟨Center.Throat, Or.inl (List.mem_singleton_self _), hr⟩
  · rw [if_neg hT]
    simp [hT]

/-- With no defined centers there is no motor-to-throat reachability. -/
theorem motor_to_throat_reachable_empty (channels : List ChannelDef) :
    ¬motor_to_throat_reachable ∅ channels := by
  rintro ⟨hT, -⟩
  exact absurd hT (Finset.not_mem_empty _)

/-- C1: `determine_type` classifies by first-match priority: reflector
iff no defined centers; manifesting generator iff Sacral is defined and
a motor is reachable from Throat (in the spec's sense of graph
reachability through the defined subgraph); generator iff Sacral is
defined and no motor is reachable; manifestor iff Sacral is undefined
and a motor is reachable; projector otherwise. -/
theorem determine_type_spec (defined : Finset Center)
    (channels : List ChannelDef) :
    (determine_type defined channels = "reflector" ↔ defined = ∅) ∧
    (determine_type defined channels = "manifesting_generator" ↔
      Center.Sacral ∈ defined ∧ motor_to_throat_reachable defined channels) ∧
    (determine_type defined channels = "generator" ↔
      Center.Sacral ∈ defined ∧ ¬motor_to_throat_reachable defined channels) ∧
    (determine_type defined channels = "manifestor" ↔
      Center.Sacral ∉ defined ∧ motor_to_throat_reachable defined channels) ∧
    (determine_type defined channels = "projector" ↔
      defined ≠ ∅ ∧ Center.Sacral ∉ defined ∧
        ¬motor_to_throat_reachable defined channels) := by
  have hiff := has_motor_to_throat_iff defined channels
  unfold determine_type
  by_cases hemp : defined = ∅
  · have hnr := motor_to_throat_reachable_empty channels
    subst hemp
    simp only [if_pos rfl]
    refine ⟨by simp, ?_, ?_, ?_, ?_⟩ <;>
      simp +decide [Finset.not_mem_empty, hnr]
  · rw [if_neg hemp]
    by_cases hsac : Center.Sacral ∈ defined <;>
      by_cases hmot : has_motor_to_throat_connection defined channels = true
    · have hr := hiff.mp hmot
      simp +decide [hsac, hmot, hr, hemp]
    · have hr : ¬motor_to_throat_reachable defined channels :=
        fun h => hmot (hiff.mpr h)
      simp +decide [hsac, hmot, hr, hemp]
    · have hr := hiff.mp hmot
      simp +decide [hsac, hmot, hr, hemp]
    · have hr : ¬motor_to_throat_reachable defined channels :=
        fun h => hmot (hiff.mpr h)
      simp +decide [hsac, hmot, hr, hemp]

/-- C6: `determine_authority` follows the fixed priority list
SolarPlexus, Sacral, Spleen, Heart, G, Throat, else lunar; in
particular when both SolarPlexus and Sacral are defined the result is
emotional. -/
theorem determine_authority_spec (defined : Finset Center) :
    (determine_authority defined = "emotional" ↔
      Center.SolarPlexus ∈ defined) ∧
    (determine_authority defined = "sacral" ↔
      Center.SolarPlexus ∉ defined ∧ Center.Sacral ∈ defined) ∧
    (determine_authority defined = "splenic" ↔
      Center.SolarPlexus ∉ defined ∧ Center.Sacral ∉ defined ∧
        Center.Spleen ∈ defined) ∧
    (determine_authority defined = "ego" ↔
      Center.SolarPlexus ∉ defined ∧ Center.Sacral ∉ defined ∧
        Center.Spleen ∉ defined ∧ Center.Heart ∈ defined) ∧
    (determine_authority defined = "self_projected" ↔
      Center.SolarPlexus ∉ defined ∧ Center.Sacral ∉ defined ∧
        Center.Spleen ∉ defined ∧ Center.Heart ∉ defined ∧
        Center.G ∈ defined) ∧
    (determine_authority defined = "mental" ↔
      Center.SolarPlexus ∉ defined ∧ Center.Sacral ∉ defined ∧
        Center.Spleen ∉ defined ∧ Center.Heart ∉ defined ∧
        Center.G ∉ defined ∧ Center.Throat ∈ defined) ∧
    (determine_authority defined = "lunar" ↔
      Center.SolarPlexus ∉ defined ∧ Center.Sacral ∉ defined ∧
        Center.Spleen ∉ defined ∧ Center.Heart ∉ defined ∧
        Center.G ∉ defined ∧ Center.Throat ∉ defined) ∧
    (Center.SolarPlexus ∈ defined ∧ Center.Sacral ∈ defined →
      determine_authority defined = "emotional") := by
  unfold determine_authority
  split_ifs with h1 h2 h3 h4 h5 h6 <;> simp_all +decide

/-! ## Angle normalization: claim C8 -/

/-- C8: `normalize_deg` always lands in `[0, 360)`, is periodic with
period 360, and agrees with `((x % 360) + 360) % 360` (with `%` the
truncated remainder of Rust `f64`). -/
theorem normalize_deg_spec (x : ℚ) :
    (0 ≤ normalize_deg x ∧ normalize_deg x < 360) ∧
    normalize_deg (x + 360) = normalize_deg x ∧
    normalize_deg x = tmodQ (tmodQ x 360 + 360) 360 := by
  obtain ⟨h0, h1, k, hk⟩ := normalize_deg_char x
  refine ⟨⟨h0, h1⟩, ?_, ?_⟩
  · exact normalize_deg_eq_of h0 h1 ⟨k + 1, by push_cast; linarith⟩
  · refine normalize_deg_eq_of
      (tmodQ_360_nonneg (by linarith [(tmodQ_360_bounds x).1]))
      ((tmodQ_360_bounds _).2)
      ⟨truncQ (x / 360) - 1 + truncQ ((tmodQ x 360 + 360) / 360), ?_⟩
    unfold tmodQ
    push_cast
    ring

/-! ## Design-time solver (`src/astro_calc.rs::find_design_jd`) -/

/-- The angular difference computed inside one iteration of
`find_design_jd`: difference from the current (normalized) Sun longitude
to the target, wrapped by the shortest-path rule (`-360` when above 180,
`+360` when below `-180`). -/
def design_diff (sun_lng : ℚ → ℚ) (target jd : ℚ) : ℚ :=
  let current := normalize_deg (sun_lng jd)
  let diff := target - current
  let diff2 := if diff > 180 then diff - 360 else diff
  if diff2 < -180 then diff2 + 360 else diff2

/-- One Newton-style correction of `find_design_jd`:
`jd += diff / 0.9856`. -/
def design_advance (sun_lng : ℚ → ℚ) (target jd : ℚ) : ℚ :=
  jd + design_diff sun_lng target jd / 0.9856

/-- The iteration loop of `find_design_jd`, fuelled by the remaining
iteration count: stop when `|diff| < 0.0001` or when the fuel (the
50-iteration cap) runs out, else advance the estimate. -/
def design_loop (sun_lng : ℚ → ℚ) (target : ℚ) : ℕ → ℚ → ℚ
  | 0, jd => jd
  | fuel + 1, jd =>
    let diff := design_diff sun_lng target jd
    if |diff| < 0.0001 then jd
    else design_loop sun_lng target fuel (jd + diff / 0.9856)

/-- `src/astro_calc.rs::find_design_jd`, parameterized by the external
ephemeris function `sun_lng` (the astro library's Sun longitude in
degrees at a Julian Day): target is `normalize(birth_sun - 88°)`,
initial guess `birth_jd - 89.3`, then at most 50 corrective
iterations. -/
def find_design_jd (sun_lng : ℚ → ℚ) (birth_jd birth_sun_lng : ℚ) : ℚ :=
  let target := normalize_deg (birth_sun_lng - 88)
  design_loop sun_lng target 50 (birth_jd - 89.3)

/-- The loop performs some number `k ≤ fuel` of advance steps, every
earlier estimate failed the tolerance test, and if it stopped before
exhausting the fuel the final estimate meets the tolerance. -/
theorem design_loop_spec (sun_lng : ℚ → ℚ) (target : ℚ) :
    ∀ (fuel : ℕ) (jd : ℚ), ∃ k ≤ fuel,
      design_loop sun_lng target fuel jd =
        (design_advance sun_lng target)^[k] jd ∧
      (∀ i < k,
        ¬(|design_diff sun_lng target
            ((design_advance sun_lng target)^[i] jd)| < 0.0001)) ∧
      (k < fuel →
        |design_diff sun_lng target
          ((design_advance sun_lng target)^[k] jd)| < 0.0001) := by
  intro fuel
  induction fuel with
  | zero =>
    intro jd
    exact ⟨0, le_refl 0, rfl, fun i hi => absurd hi (Nat.not_lt_zero i),
      fun h => absurd h (lt_irrefl 0)⟩
  | succ fuel ih =>
    intro jd
    by_cases htol : |design_diff sun_lng target jd| < 0.0001
    · refine ⟨0, Nat.zero_le _, ?_, fun i hi => absurd hi (Nat.not_lt_zero i),
        fun _ => htol⟩
      rw [design_loop, if_pos htol]
      rfl
    · obtain ⟨k, hk, heq, hall, hend⟩ := ih (design_advance sun_lng target jd)
      refine ⟨k + 1, Nat.succ_le_succ hk, ?_, ?_, ?_⟩
      · rw [design_loop, if_neg htol, Function.iterate_succ_apply]
        exact heq
      · intro i hi
        match i with
        | 0 => exact htol
        | j + 1 =>
          rw [Function.iterate_succ_apply]
          exact hall j (Nat.lt_of_succ_lt_succ hi)
      · intro h
        rw [Function.iterate_succ_apply]
        exact hend (Nat.lt_of_succ_lt_succ h)

/-- C7: `find_design_jd` always terminates with at most 50 iterations:
its result is exactly `k ≤ 50` Newton-style corrections applied to the
initial guess `birth_jd - 89.3` toward the target
`normalize(birth_sun - 88°)`, each performed only because the wrapped
angular difference was not yet below 0.0001, and when it stops before
the 50-iteration cap the final estimate meets the tolerance; no error is
raised in either case. -/
theorem find_design_jd_spec (sun_lng : ℚ → ℚ) (birth_jd birth_sun_lng : ℚ) :
    ∃ k ≤ 50,
      find_design_jd sun_lng birth_jd birth_sun_lng =
        (design_advance sun_lng (normalize_deg (birth_sun_lng - 88)))^[k]
          (birth_jd - 89.3) ∧
      (∀ i < k,
        ¬(|design_diff sun_lng (normalize_deg (birth_sun_lng - 88))
            ((design_advance sun_lng (normalize_deg (birth_sun_lng - 88)))^[i]
              (birth_jd - 89.3))| < 0.0001)) ∧
      (k < 50 →
        |design_diff sun_lng (normalize_deg (birth_sun_lng - 88))
          ((design_advance sun_lng (normalize_deg (birth_sun_lng - 88)))^[k]
            (birth_jd - 89.3))| < 0.0001) :=
  design_loop_spec sun_lng (normalize_deg (birth_sun_lng - 88)) 50
    (birth_jd - 89.3)

/-! ## Calendar conversion (`src/astro_calc.rs`) -/

/-- The `time::Month` enumeration of the external time library. -/
inductive Month where
  | Jan
  | Feb
  | Mar
  | Apr
  | May
  | June
  | July
  | Aug
  | Sept
  | Oct
  | Nov
  | Dec
  deriving DecidableEq

/-- `src/astro_calc.rs::month_from_u8`: convert 1..=12 to a month; any
other value panics in the source, modelled by `none`. -/
def month_from_u8 : ℕ → Option Month
  | 1 => some .Jan
  | 2 => some .Feb
  | 3 => some .Mar
  | 4 => some .Apr
  | 5 => some .May
  | 6 => some .June
  | 7 => some .July
  | 8 => some .Aug
  | 9 => some .Sept
  | 10 => some .Oct
  | 11 => some .Nov
  | 12 => some .Dec
  | _ => none

/-- `src/astro_calc.rs::days_in_month`.  (Rust `%` on `i32` is the
truncated remainder; it agrees with Lean's `%` on every `== 0` test, and
the function only tests remainders against 0.) -/
def days_in_month (year : ℤ) (month : ℕ) : ℕ :=
  match month with
  | 1 | 3 | 5 | 7 | 8 | 10 | 12 => 31
  | 4 | 6 | 9 | 11 => 30
  | 2 =>
    if year % 4 = 0 ∧ (year % 100 ≠ 0 ∨ year % 400 = 0) then 29 else 28
  | _ => 30

/-- `src/astro_calc.rs::prev_day` -/
def prev_day (year : ℤ) (month day : ℕ) : ℤ × ℕ × ℕ :=
  if day > 1 then (year, month, day - 1)
  else if month > 1 then (year, month - 1, days_in_month year (month - 1))
  else (year - 1, 12, 31)

/-- `src/astro_calc.rs::next_day` -/
def next_day (year : ℤ) (month day : ℕ) : ℤ × ℕ × ℕ :=
  let max := days_in_month year month
  if day < max then (year, month, day + 1)
  else if month < 12 then (year, month + 1, 1)
  else (year + 1, 1, 1)

/-- The fields of the external `time::DayOfMonth` struct that
`calc_julian_day` fills in (its `sec` and `time_zone` are always 0). -/
structure DayOfMonth where
  day : ℕ
  hr : ℕ
  min : ℕ
  deriving DecidableEq

/-- The Gregorian date data `calc_julian_day` hands to the external
`time::decimal_day` / `time::julian_day` calls. -/
structure HDate where
  year : ℤ
  month : Month
  dom : DayOfMonth
  deriving DecidableEq

/-- `src/astro_calc.rs::calc_julian_day`, up to the external
`time::decimal_day`/`time::julian_day` calls (the returned value is the
Gregorian date data those calls receive): convert to UTC hours, roll the
civil date back or forward across midnight, quantize hours/minutes with
the source's `floor`/`fract`/`abs` and `as u8` casts, and cast the
adjusted year with the source's wrapping `adj_year as i16` when building
the `time::Date`.  The `month_from_u8` panic is modelled by `none`. -/
def calc_julian_day (year : ℤ) (month day hour minute : ℕ)
    (utc_offset : ℚ) : Option HDate :=
  let total_hours : ℚ := hour + minute / 60 - utc_offset
  if total_hours < 0 then
    let p := prev_day year month day
    let corrected := total_hours + 24
    (month_from_u8 p.2.1).map fun m =>
      ⟨castI16 p.1, m,
        ⟨p.2.2, castU8 ⌊corrected⌋, castU8 ⌊fractQ corrected * 60⌋⟩⟩
  else if total_hours ≥ 24 then
    let n := next_day year month day
    let corrected := total_hours - 24
    (month_from_u8 n.2.1).map fun m =>
      ⟨castI16 n.1, m,
        ⟨n.2.2, castU8 ⌊corrected⌋, castU8 ⌊fractQ corrected * 60⌋⟩⟩
  else
    (month_from_u8 month).map fun m =>
      ⟨castI16 year, m,
        ⟨day, castU8 ⌊total_hours⌋, castU8 ⌊|fractQ total_hours| * 60⌋⟩⟩

/-- The month's number, 1..12 (inverse of `month_from_u8`). -/
def month_nat : Month → ℕ
  | .Jan => 1
  | .Feb => 2
  | .Mar => 3
  | .Apr => 4
  | .May => 5
  | .June => 6
  | .July => 7
  | .Aug => 8
  | .Sept => 9
  | .Oct => 10
  | .Nov => 11
  | .Dec => 12

/-- The `(year, month, day)` triple of the date data handed to the
external library. -/
def date_of (h : HDate) : ℤ × ℕ × ℕ := (h.year, month_nat h.month, h.dom.day)

/-- Spec-side day numbering: days of history before year `y` (proleptic
Gregorian, year counts from 0). -/
def days_before_year (y : ℤ) : ℤ :=
  365 * y + (y + 3) / 4 - (y + 99) / 100 + (y + 399) / 400

/-- Spec-side: days of year `year` before the first of `month`. -/
def days_before_month (year : ℤ) (month : ℕ) : ℤ :=
  match month with
  | 0 => 0
  | 1 => 0
  | m + 1 => days_before_month year m + days_in_month year m

/-- Spec-side absolute day number of a `(year, month, day)` triple. -/
def to_ordinal (d : ℤ × ℕ × ℕ) : ℤ :=
  days_before_year d.1 + days_before_month d.1 d.2.1 + d.2.2

/-- Spec-side validity of a `(year, month, day)` triple. -/
def valid_date (d : ℤ × ℕ × ℕ) : Prop :=
  1 ≤ d.2.1 ∧ d.2.1 ≤ 12 ∧ 1 ≤ d.2.2 ∧ d.2.2 ≤ days_in_month d.1 d.2.1

theorem days_in_month_pos (y : ℤ) (m : ℕ) : 1 ≤ days_in_month y m := by
  unfold days_in_month
  split <;> try omega
  split_ifs <;> omega

/-- One more year adds 365 days, or 366 in a leap year. -/
theorem days_before_year_succ (y : ℤ) :
    days_before_year (y + 1) = days_before_year y + 365 +
      (if y % 4 = 0 ∧ (y % 100 ≠ 0 ∨ y % 400 = 0) then 1 else 0) := by
  unfold days_before_year
  split_ifs with h
  · omega
  · omega

/-- One more month adds that month's days. -/
theorem days_before_month_succ (y : ℤ) (m : ℕ) (hm : 1 ≤ m) :
    days_before_month y (m + 1) =
      days_before_month y m + days_in_month y m := by
  obtain ⟨k, rfl⟩ : ∃ k, m = k + 1 := ⟨m - 1, by omega⟩
  rfl

/-- The days of January through November sum to 334 (335 in a leap
year). -/
theorem days_before_month_12 (y : ℤ) :
    days_before_month y 12 = 334 +
      (if y % 4 = 0 ∧ (y % 100 ≠ 0 ∨ y % 400 = 0) then 1 else 0) := by
  have h : days_before_month y 12 =
      0 + 31 + days_in_month y 2 + 31 + 30 + 31 + 30 + 31 + 31 + 30 + 31 + 30 :=
    rfl
  have h2 : days_in_month y 2 =
      if y % 4 = 0 ∧ (y % 100 ≠ 0 ∨ y % 400 = 0) then 29 else 28 := rfl
  rw [h, h2]
  split_ifs <;> omega

theorem month_from_u8_none (m : ℕ) (h : m = 0 ∨ 12 < m) :
    month_from_u8 m = none := by
  rcases h with rfl | h
  · rfl
  · obtain ⟨k, rfl⟩ : ∃ k, m = k + 13 := ⟨m - 13, by omega⟩
    rfl

theorem month_from_u8_roundtrip (m : ℕ) (h1 : 1 ≤ m) (h2 : m ≤ 12) :
    ∃ mo, month_from_u8 m = some mo ∧ month_nat mo = m := by
  interval_cases m <;> exact ⟨_, rfl, rfl⟩

/-- `prev_day` of a valid date is the valid date one day earlier. -/
theorem prev_day_spec (year : ℤ) (month day : ℕ) (hm1 : 1 ≤ month)
    (hm2 : month ≤ 12) (hd1 : 1 ≤ day)
    (hd2 : day ≤ days_in_month year month) :
    to_ordinal (prev_day year month day) = to_ordinal (year, month, day) - 1 ∧
    valid_date (prev_day year month day) := by
  unfold prev_day
  by_cases h1 : day > 1
  · rw [if_pos h1]
    refine ⟨?_, ?_⟩
    · simp only [to_ordinal]
      omega
    · show 1 ≤ month ∧ month ≤ 12 ∧ 1 ≤ day - 1 ∧
        day - 1 ≤ days_in_month year month
      exact ⟨hm1, hm2, by omega, by omega⟩
  · rw [if_neg h1]
    have hday : day = 1 := by omega
    subst hday
    by_cases h2 : month > 1
    · rw [if_pos h2]
      have hsucc := days_before_month_succ year (month - 1) (by omega)
      rw [show month - 1 + 1 = month from by omega] at hsucc
      refine ⟨?_, ?_⟩
      · simp only [to_ordinal]
        omega
      · show 1 ≤ month - 1 ∧ month - 1 ≤ 12 ∧
          1 ≤ days_in_month year (month - 1) ∧
          days_in_month year (month - 1) ≤ days_in_month year (month - 1)
        exact ⟨by omega, by omega, days_in_month_pos _ _, Nat.le_refl _⟩
    · rw [if_neg h2]
      have hmonth : month = 1 := by omega
      subst hmonth
      have hy := days_before_year_succ (year - 1)
      rw [show year - 1 + 1 = year from by omega] at hy
      have h12 := days_before_month_12 (year - 1)
      have hdbm1 : days_before_month year 1 = 0 := rfl
      refine ⟨?_, ?_⟩
      · simp only [to_ordinal]
        by_cases hleap : (year - 1) % 4 = 0 ∧
            ((year - 1) % 100 ≠ 0 ∨ (year - 1) % 400 = 0)
        · rw [if_pos hleap] at hy h12
          omega
        · rw [if_neg hleap] at hy h12
          omega
      · show 1 ≤ 12 ∧ 12 ≤ 12 ∧ 1 ≤ 31 ∧ 31 ≤ days_in_month (year - 1) 12
        exact ⟨by omega, by omega, by omega, Nat.le_refl _⟩

/-- `next_day` of a valid date is the valid date one day later. -/
theorem next_day_spec (year : ℤ) (month day : ℕ) (hm1 : 1 ≤ month)
    (hm2 : month ≤ 12) (hd1 : 1 ≤ day)
    (hd2 : day ≤ days_in_month year month) :
    to_ordinal (next_day year month day) = to_ordinal (year, month, day) + 1 ∧
    valid_date (next_day year month day) := by
  unfold next_day
  simp only
  by_cases h1 : day < days_in_month year month
  · rw [if_pos h1]
    refine ⟨?_, ?_⟩
    · simp only [to_ordinal]
      omega
    · show 1 ≤ month ∧ month ≤ 12 ∧ 1 ≤ day + 1 ∧
        day + 1 ≤ days_in_month year month
      exact ⟨hm1, hm2, by omega, by omega⟩
  · rw [if_neg h1]
    have hday : day = days_in_month year month := by omega
    by_cases h2 : month < 12
    · rw [if_pos h2]
      have hsucc := days_before_month_succ year month hm1
      refine ⟨?_, ?_⟩
      · simp only [to_ordinal]
        omega
      · show 1 ≤ month + 1 ∧ month + 1 ≤ 12 ∧ 1 ≤ 1 ∧
          1 ≤ days_in_month year (month + 1)
        exact ⟨by omega, by omega, by omega, days_in_month_pos _ _⟩
    · rw [if_neg h2]
      have hmonth : month = 12 := by omega
      subst hmonth
      have hday31 : day = 31 := hday
      subst hday31
      have hy := days_before_year_succ year
      have h12 := days_before_month_12 year
      have hdbm1 : days_before_month (year + 1) 1 = 0 := rfl
      refine ⟨?_, ?_⟩
      · simp only [to_ordinal]
        by_cases hleap : year % 4 = 0 ∧ (year % 100 ≠ 0 ∨ year % 400 = 0)
        · rw [if_pos hleap] at hy h12
          omega
        · rw [if_neg hleap] at hy h12
          omega
      · show 1 ≤ 1 ∧ 1 ≤ 12 ∧ 1 ≤ 1 ∧ 1 ≤ days_in_month (year + 1) 1
        exact ⟨by omega, by omega, by omega, days_in_month_pos _ _⟩

/-- The month produced by `prev_day` lies in 1..12 whenever the input
month does (for any day value). -/
theorem prev_day_month_bounds (year : ℤ) (month day : ℕ) (h1 : 1 ≤ month)
    (h2 : month ≤ 12) :
    1 ≤ (prev_day year month day).2.1 ∧ (prev_day year month day).2.1 ≤ 12 := by
  unfold prev_day
  split_ifs with ha hb
  · exact ⟨h1, h2⟩
  · exact show 1 ≤ month - 1 ∧ month - 1 ≤ 12 from ⟨by omega, by omega⟩
  · exact show 1 ≤ 12 ∧ 12 ≤ 12 from ⟨by omega, by omega⟩

/-- The month produced by `next_day` lies in 1..12 whenever the input
month does (for any day value). -/
theorem next_day_month_bounds (year : ℤ) (month day : ℕ) (h1 : 1 ≤ month)
    (h2 : month ≤ 12) :
    1 ≤ (next_day year month day).2.1 ∧ (next_day year month day).2.1 ≤ 12 := by
  unfold next_day
  simp only
  split_ifs with ha hb
  · exact ⟨h1, h2⟩
  · exact show 1 ≤ month + 1 ∧ month + 1 ≤ 12 from ⟨by omega, by omega⟩
  · exact show 1 ≤ 1 ∧ 1 ≤ 12 from ⟨by omega, by omega⟩

/-- The wrapping `i16` cast is the identity on its own range. -/
theorem castI16_eq_self {z : ℤ} (h1 : -32768 ≤ z) (h2 : z ≤ 32767) :
    castI16 z = z := by
  unfold castI16
  omega

/-- C9 (amended): for a valid civil date, a negative UTC-adjusted hour
(`hour + minute/60 - offset`) rolls the civil date back exactly one
calendar day and an adjusted hour ≥ 24 exactly one day forward — the
rolled date is valid and one day off in the proleptic-Gregorian day
ordinal, so month and year boundaries are handled with the exact
Gregorian rule — but the year handed to the external Julian-Day
conversion is the `i16` wrapping cast (`adj_year as i16`) of the rolled
year, so the handed date equals the rolled civil date exactly when that
year lies in −32768..=32767.  `days_in_month` implements the exact leap
rule: February has 29 days iff
`year % 4 == 0 && (year % 100 != 0 || year % 400 == 0)`, the other
months having their fixed lengths. -/
theorem calc_julian_day_rollover (year : ℤ) (month day hour minute : ℕ)
    (utc_offset : ℚ) :
    (1 ≤ month → month ≤ 12 → 1 ≤ day → day ≤ days_in_month year month →
      (((hour : ℚ) + minute / 60 - utc_offset < 0 →
        (calc_julian_day year month day hour minute utc_offset).map date_of =
          some (castI16 (prev_day year month day).1,
            (prev_day year month day).2.1, (prev_day year month day).2.2) ∧
        (-32768 ≤ (prev_day year month day).1 →
          (prev_day year month day).1 ≤ 32767 →
          (calc_julian_day year month day hour minute utc_offset).map
            date_of = some (prev_day year month day)) ∧
        to_ordinal (prev_day year month day) =
          to_ordinal (year, month, day) - 1 ∧
        valid_date (prev_day year month day)) ∧
      ((hour : ℚ) + minute / 60 - utc_offset ≥ 24 →
        (calc_julian_day year month day hour minute utc_offset).map date_of =
          some (castI16 (next_day year month day).1,
            (next_day year month day).2.1, (next_day year month day).2.2) ∧
        (-32768 ≤ (next_day year month day).1 →
          (next_day year month day).1 ≤ 32767 →
          (calc_julian_day year month day hour minute utc_offset).map
            date_of = some (next_day year month day)) ∧
        to_ordinal (next_day year month day) =
          to_ordinal (year, month, day) + 1 ∧
        valid_date (next_day year month day)))) ∧
    (days_in_month year 2 = 29 ↔
      year % 4 = 0 ∧ (year % 100 ≠ 0 ∨ year % 400 = 0)) ∧
    (days_in_month year 1 = 31 ∧ days_in_month year 3 = 31 ∧
      days_in_month year 4 = 30 ∧ days_in_month year 5 = 31 ∧
      days_in_month year 6 = 30 ∧ days_in_month year 7 = 31 ∧
      days_in_month year 8 = 31 ∧ days_in_month year 9 = 30 ∧
      days_in_month year 10 = 31 ∧ days_in_month year 11 = 30 ∧
      days_in_month year 12 = 31 ∧
      (¬(year % 4 = 0 ∧ (year % 100 ≠ 0 ∨ year % 400 = 0)) →
        days_in_month year 2 = 28)) := by
  refine ⟨?_, ?_, ?_⟩
  · intro hm1 hm2 hd1 hd2
    constructor
    · intro htot
      obtain ⟨hord, hval⟩ := prev_day_spec year month day hm1 hm2 hd1 hd2
      obtain ⟨mo, hmo, hnat⟩ :=
        month_from_u8_roundtrip (prev_day year month day).2.1 hval.1 hval.2.1
      have heq : (calc_julian_day year month day hour minute utc_offset).map
          date_of = some (castI16 (prev_day year month day).1,
            (prev_day year month day).2.1, (prev_day year month day).2.2) := by
        simp only [calc_julian_day]
        rw [if_pos htot, hmo]
        simp [date_of, hnat]
      refine ⟨heq, ?_, hord, hval⟩
      intro hy1 hy2
      rw [heq, castI16_eq_self hy1 hy2]
    · intro htot
      obtain ⟨hord, hval⟩ := next_day_spec year month day hm1 hm2 hd1 hd2
      obtain ⟨mo, hmo, hnat⟩ :=
        month_from_u8_roundtrip (next_day year month day).2.1 hval.1 hval.2.1
      have heq : (calc_julian_day year month day hour minute utc_offset).map
          date_of = some (castI16 (next_day year month day).1,
            (next_day year month day).2.1, (next_day year month day).2.2) := by
        simp only [calc_julian_day]
        rw [if_neg
            (by linarith : ¬((hour : ℚ) + minute / 60 - utc_offset < 0)),
          if_pos htot, hmo]
        simp [date_of, hnat]
      refine ⟨heq, ?_, hord, hval⟩
      intro hy1 hy2
      rw [heq, castI16_eq_self hy1 hy2]
  · show (if year % 4 = 0 ∧ (year % 100 ≠ 0 ∨ year % 400 = 0)
        then 29 else 28) = 29 ↔ _
    split_ifs with h
    · exact iff_of_true rfl h
    · exact iff_of_false (by omega) h
  · refine ⟨rfl, rfl, rfl, rfl, rfl, rfl, rfl, rfl, rfl, rfl, rfl, ?_⟩
    intro h
    show (if year % 4 = 0 ∧ (year % 100 ≠ 0 ∨ year % 400 = 0)
        then 29 else 28) = 28
    rw [if_neg h]

/-- C10 (amended): `calc_julian_day` never panics when the month is in
1..12 — the rollover helpers also only ever produce months in 1..12 —
and with a month outside 1..12 it panics exactly when no midnight
rollover occurs; a rollover can repair an invalid month (see the
counterexample), so the original "panics for every month outside 1..12"
is too strong. -/
theorem calc_julian_day_month_safety (year : ℤ) (month day hour minute : ℕ)
    (utc_offset : ℚ) :
    ((month_from_u8 month).isSome = true ↔ 1 ≤ month ∧ month ≤ 12) ∧
    (1 ≤ month → month ≤ 12 →
      (1 ≤ (prev_day year month day).2.1 ∧
        (prev_day year month day).2.1 ≤ 12) ∧
      (1 ≤ (next_day year month day).2.1 ∧
        (next_day year month day).2.1 ≤ 12) ∧
      (calc_julian_day year month day hour minute utc_offset).isSome =
        true) ∧
    ((month = 0 ∨ 12 < month) →
      0 ≤ (hour : ℚ) + minute / 60 - utc_offset →
      (hour : ℚ) + minute / 60 - utc_offset < 24 →
      calc_julian_day year month day hour minute utc_offset = none) := by
  refine ⟨?_, ?_, ?_⟩
  · constructor
    · intro h
      by_contra hc
      rw [month_from_u8_none month (by omega)] at h
      exact Bool.false_ne_true h
    · rintro ⟨h1, h2⟩
      obtain ⟨mo, hmo, -⟩ := month_from_u8_roundtrip month h1 h2
      rw [hmo]
      rfl
  · intro h1 h2
    refine ⟨prev_day_month_bounds year month day h1 h2,
      next_day_month_bounds year month day h1 h2, ?_⟩
    simp only [calc_julian_day]
    split_ifs with ha hb
    · obtain ⟨mo, hmo, -⟩ := month_from_u8_roundtrip _
        (prev_day_month_bounds year month day h1 h2).1
        (prev_day_month_bounds year month day h1 h2).2
      rw [hmo]
      rfl
    · obtain ⟨mo, hmo, -⟩ := month_from_u8_roundtrip _
        (next_day_month_bounds year month day h1 h2).1
        (next_day_month_bounds year month day h1 h2).2
      rw [hmo]
      rfl
    · obtain ⟨mo, hmo, -⟩ := month_from_u8_roundtrip month h1 h2
      rw [hmo]
      rfl
  · intro hm h0 h24
    simp only [calc_julian_day]
    rw [if_neg (not_lt.mpr h0), if_neg (not_le.mpr h24),
      month_from_u8_none month (by omega)]
    rfl

/-- Counterexample to C10 as stated: with month 0 (outside 1..12) but a
negative UTC-adjusted hour, the rollback path goes through
`prev_day 2000 0 1 = (1999, 12, 31)`, whose month 12 is valid, so
`calc_julian_day` returns a value instead of panicking. -/
theorem calc_julian_day_invalid_month_no_panic :
    (calc_julian_day 2000 0 1 0 0 1).isSome = true ∧
    (calc_julian_day 2000 0 1 0 0 1).map date_of = some (1999, 12, 31) := by
  have hp : prev_day 2000 0 1 = (1999, 12, 31) := by decide
  simp only [calc_julian_day]
  split_ifs with h1 h2
  · rw [hp]
    exact ⟨rfl, rfl⟩
  · exfalso
    norm_num at h2
  · exfalso
    norm_num at h1

/-- Counterexample to C9 as stated: at year 40000 (a valid civil date)
the rollback correctly computes `prev_day 40000 1 1 = (39999, 12, 31)`,
but the source's `adj_year as i16` cast wraps the year to −25537, so the
date handed to the external Julian-Day conversion is not the previous
calendar day. -/
theorem calc_julian_day_year_wraps :
    (calc_julian_day 40000 1 1 0 30 5).map date_of =
      some (-25537, 12, 31) ∧
    prev_day 40000 1 1 = (39999, 12, 31) ∧
    (calc_julian_day 40000 1 1 0 30 5).map date_of ≠
      some (prev_day 40000 1 1) := by
  have hp : prev_day 40000 1 1 = (39999, 12, 31) := by decide
  have hc : castI16 39999 = -25537 := by decide
  have heq : (calc_julian_day 40000 1 1 0 30 5).map date_of =
      some (-25537, 12, 31) := by
    simp only [calc_julian_day]
    split_ifs with h1 h2
    · rw [hp]
      show some (castI16 39999, 12, 31) = some (-25537, 12, 31)
      rw [hc]
    · exfalso
      norm_num at h2
    · exfalso
      norm_num at h1
  refine ⟨heq, hp, ?_⟩
  rw [heq, hp]
  decide

end HDcli
